import Mathlib

set_option maxRecDepth 100000

/-!
Verification of the JSON-translation update script.

Python strings are modelled as lists of characters; the file system as an
association list from paths to contents.  Fallible steps return Option.
-/

/-- Python strings are modelled as lists of characters. -/
abbrev Str := List Char

/-- The double-quote character. -/
def dqc : Char := Char.ofNat 34

/-- The single-quote character. -/
def sqc : Char := Char.ofNat 39

/-- The opening-brace character. -/
def obc : Char := Char.ofNat 123

/-- The closing-brace character. -/
def cbc : Char := Char.ofNat 125

/-- The backslash character. -/
def bslc : Char := Char.ofNat 92

/-- `strStartsWith p s` is true when `p` is an initial segment of `s`
(models Python `s.startswith(p)`). -/
def strStartsWith : Str → Str → Bool
  | [], _ => true
  | _ :: _, [] => false
  | p :: ps, c :: cs => p = c && strStartsWith ps cs

/-- Characters counted as hexadecimal by the pattern `[a-f0-9]`. -/
def isHexChar (c : Char) : Bool := (('a' ≤ c) && (c ≤ 'f')) || (('0' ≤ c) && (c ≤ '9'))

/-- The literal part of the pattern: a single quote, `version`, a single
quote, a space, `=>`, a space, and an opening single quote. -/
def versionLit : Str := sqc :: ("version".data ++ (sqc :: (" => ".data ++ [sqc])))

/-- One attempt of the regex engine at the current position: the literal
prefix must match, then a nonempty maximal run of `[a-f0-9]` characters
must follow, terminated immediately by a closing single quote.  (With a
greedy `([a-f0-9]+)` followed by a quote, backtracking cannot shorten the
run: every character inside the run is hexadecimal and hence not a quote,
so the match at this position succeeds only in this exact shape.) -/
def matchVersionAt (s : Str) : Option Str :=
  if strStartsWith versionLit s then
    let after := s.drop versionLit.length
    let run := after.takeWhile isHexChar
    match run, after.drop run.length with
    | [], _ => none
    | _ :: _, c :: _ => if c = sqc then some run else none
    | _ :: _, [] => none
  else none

/-- `re.search` over the whole text: the leftmost position at which
`matchVersionAt` succeeds, returning the captured group. -/
def reSearchVersion : Str → Option Str
  | [] => none
  | c :: rest =>
    match matchVersionAt (c :: rest) with
    | some r => some r
    | none => reSearchVersion rest

/-- Lines 20-28 of the script: search the manifest text for the version
pattern and keep the first 32 characters of the captured group
(`match.group(1)[:32]`). -/
def extractHash (content : Str) : Option Str :=
  (reSearchVersion content).map (fun t => List.take 32 t)

/-! ## PO-file parser (lines 36-80 of the script) -/

/-- Python `str.strip()` whitespace (the ASCII whitespace characters). -/
def isPyWs (c : Char) : Bool :=
  c = ' ' || c = '\t' || c = '\n' || c = '\r' || c = Char.ofNat 11 || c = Char.ofNat 12

/-- Python `line.strip()`: remove whitespace from both ends. -/
def pstrip (s : Str) : Str := ((s.dropWhile isPyWs).reverse.dropWhile isPyWs).reverse

/-- Python `s.strip(chr(34))`: remove all leading and trailing double
quotes. -/
def stripDq (s : Str) : Str :=
  ((s.dropWhile (fun c => c = dqc)).reverse.dropWhile (fun c => c = dqc)).reverse

/-- Insertion into a Python dict represented as an association list in
insertion order: an existing key has its value replaced in place, a new
key is appended at the end. -/
def dictInsert {α β : Type} [DecidableEq α] : List (α × β) → α → β → List (α × β)
  | [], k, v => [(k, v)]
  | (k0, v0) :: rest, k, v =>
    if k0 = k then (k0, v) :: rest else (k0, v0) :: dictInsert rest k v

/-- The parser state: the accumulated table and the four loop variables
`current_msgid`, `current_msgstr`, `in_msgid`, `in_msgstr`. -/
structure PState where
  translations : List (Str × Str)
  current_msgid : Str
  current_msgstr : Str
  in_msgid : Bool
  in_msgstr : Bool
deriving DecidableEq

/-- The initial parser state (lines 37-41). -/
def initPState : PState := ⟨[], [], [], false, false⟩

/-- The marker `msgid` followed by a space. -/
def msgidMark : Str := "msgid ".data

/-- The marker `msgstr` followed by a space. -/
def msgstrMark : Str := "msgstr ".data

/-- One iteration of the `for line in f` loop (lines 44-73): strip the
line; on `msgid ` flush the pending pair when both parts are nonempty and
start a new key; on `msgstr ` start the value; on a line whose first
character is a quote append the unquoted content to the active
accumulator; on an empty line flush and reset; ignore anything else. -/
def processLine (st : PState) (rawLine : Str) : PState :=
  let line := pstrip rawLine
  if strStartsWith msgidMark line then
    let tr :=
      if st.current_msgid ≠ [] ∧ st.current_msgstr ≠ [] then
        dictInsert st.translations st.current_msgid st.current_msgstr
      else st.translations
    { translations := tr, current_msgid := stripDq (line.drop 6), current_msgstr := [],
      in_msgid := true, in_msgstr := false }
  else if strStartsWith msgstrMark line then
    { st with current_msgstr := stripDq (line.drop 7), in_msgid := false, in_msgstr := true }
  else
    match line with
    | [] =>
      let tr :=
        if st.current_msgid ≠ [] ∧ st.current_msgstr ≠ [] then
          dictInsert st.translations st.current_msgid st.current_msgstr
        else st.translations
      { translations := tr, current_msgid := [], current_msgstr := [],
        in_msgid := false, in_msgstr := false }
    | c :: _ =>
      if c = dqc then
        let value := stripDq line
        if st.in_msgid then { st with current_msgid := st.current_msgid ++ value }
        else if st.in_msgstr then { st with current_msgstr := st.current_msgstr ++ value }
        else st
      else st

/-- The flush after the loop (lines 76-77). -/
def flushFinal (st : PState) : List (Str × Str) :=
  if st.current_msgid ≠ [] ∧ st.current_msgstr ≠ [] then
    dictInsert st.translations st.current_msgid st.current_msgstr
  else st.translations

/-- The whole parse of a translation source given as its list of lines,
including the final filter dropping empty values (line 80). -/
def parsePO (lines : List Str) : List (Str × Str) :=
  (flushFinal (lines.foldl processLine initPState)).filter (fun kv => decide (kv.2 ≠ []))

/-- Splitting file content into the lines produced by `for line in f`
(the trailing newline of each line is dropped here; `strip()` removes it
anyway). -/
def splitLinesAux (cur : Str) : Str → List Str
  | [] => if cur.isEmpty then [] else [cur.reverse]
  | c :: rest =>
    if c = '\n' then cur.reverse :: splitLinesAux [] rest else splitLinesAux (c :: cur) rest

/-- The list of lines of a file content. -/
def splitLines (s : Str) : List Str := splitLinesAux [] s

/-! ## JSON values, the emitter (`json.dump(..., ensure_ascii=False, indent=2)`)
and a parser for the emitted subset (strings and objects), modelling
`json.loads`. -/

/-- A JSON value of the shape the script emits: strings and objects. -/
inductive JVal : Type where
  | str : Str → JVal
  | obj : List (Str × JVal) → JVal

/-- Lower-case hexadecimal digit of a value below 16. -/
def hexDigit (n : Nat) : Char :=
  if n < 10 then Char.ofNat (48 + n) else Char.ofNat (97 + (n - 10))

/-- The escaping of one character performed by `json.dump` with
`ensure_ascii=False`: quote, backslash and the control characters are
escaped, everything else is kept literally. -/
def escapeChar (c : Char) : Str :=
  if c = dqc then [bslc, dqc]
  else if c = bslc then [bslc, bslc]
  else if c = '\n' then [bslc, 'n']
  else if c = '\t' then [bslc, 't']
  else if c = '\r' then [bslc, 'r']
  else if c = Char.ofNat 8 then [bslc, 'b']
  else if c = Char.ofNat 12 then [bslc, 'f']
  else if c.toNat < 32 then [bslc, 'u', '0', '0', hexDigit (c.toNat / 16), hexDigit (c.toNat % 16)]
  else [c]

/-- Escaping of a whole string. -/
def escString (s : Str) : Str := s.foldr (fun c acc => escapeChar c ++ acc) []

/-- A serialized JSON string: quote, escaped content, quote. -/
def serString (s : Str) : Str := dqc :: (escString s ++ [dqc])

/-- Newline followed by the indentation of depth `d` (two spaces per
level, as `indent=2` produces). -/
def nlIndent (d : Nat) : Str := '\n' :: List.replicate (2 * d) ' '

mutual
/-- Serialization of a JSON value at nesting depth `d`, following
`json.dump(..., ensure_ascii=False, indent=2)`: strings are quoted and
escaped; an empty object is the two braces; a nonempty object puts every
entry on its own indented line, entries separated by commas, with the
closing brace on a line of its own. -/
def serJVal : Nat → JVal → Str
  | _, .str s => serString s
  | _, .obj [] => [obc, cbc]
  | d, .obj (e :: es) => obc :: (serJEntries (d + 1) (e :: es) ++ (nlIndent d ++ [cbc]))
/-- Serialization of the entry list of a nonempty object: each entry is
`newline indent key colon space value`, entries separated by commas. -/
def serJEntries : Nat → List (Str × JVal) → Str
  | _, [] => []
  | d, (k, v) :: es =>
      (nlIndent d ++ (serString k ++ (':' :: ' ' :: serJVal d v))) ++
        (if es.isEmpty then [] else ',' :: serJEntries d es)
end

/-- JSON whitespace, as skipped by the decoder. -/
def isJsonWs (c : Char) : Bool := c = ' ' || c = '\t' || c = '\n' || c = '\r'

/-- Skip JSON whitespace. -/
def skipWs (s : Str) : Str := s.dropWhile isJsonWs

/-- The value of one hexadecimal digit, upper or lower case. -/
def hexVal (c : Char) : Option Nat :=
  if ('0' ≤ c) && (c ≤ '9') then some (c.toNat - 48)
  else if ('a' ≤ c) && (c ≤ 'f') then some (c.toNat - 87)
  else if ('A' ≤ c) && (c ≤ 'F') then some (c.toNat - 55)
  else none

/-- The single-character escapes accepted by the JSON decoder. -/
def unescapeChar (c : Char) : Option Char :=
  if c = dqc then some dqc
  else if c = bslc then some bslc
  else if c = '/' then some '/'
  else if c = 'n' then some '\n'
  else if c = 't' then some '\t'
  else if c = 'r' then some '\r'
  else if c = 'b' then some (Char.ofNat 8)
  else if c = 'f' then some (Char.ofNat 12)
  else none

/-- Decoding of a JSON string body after the opening quote, strict about
unescaped control characters as `json.loads` is; returns the decoded
content and the rest of the input after the closing quote. -/
def parseStringBody : Str → Option (Str × Str)
  | [] => none
  | c :: rest =>
    if c = dqc then some ([], rest)
    else if c = bslc then
      match rest with
      | [] => none
      | e :: rest2 =>
        if e = 'u' then
          match rest2 with
          | h1 :: h2 :: h3 :: h4 :: rest3 =>
            match hexVal h1, hexVal h2, hexVal h3, hexVal h4 with
            | some n1, some n2, some n3, some n4 =>
              match parseStringBody rest3 with
              | some (s, r) => some (Char.ofNat (4096 * n1 + 256 * n2 + 16 * n3 + n4) :: s, r)
              | none => none
            | _, _, _, _ => none
          | _ => none
        else
          match unescapeChar e with
          | some ec =>
            match parseStringBody rest2 with
            | some (s, r) => some (ec :: s, r)
            | none => none
          | none => none
    else if c.toNat < 32 then none
    else
      match parseStringBody rest with
      | some (s, r) => some (c :: s, r)
      | none => none

mutual
/-- Fuel-indexed decoder for a JSON value of the emitted subset: a string
or an object.  The fuel only has to dominate the nesting depth and the
entry counts; `jloads` passes the input length plus one, which always
suffices for serialized documents. -/
def pVal : Nat → Str → Option (JVal × Str)
  | 0, _ => none
  | _ + 1, [] => none
  | f + 1, c :: rest =>
    if c = dqc then
      match parseStringBody rest with
      | some (s, r) => some (JVal.str s, r)
      | none => none
    else if c = obc then
      match skipWs rest with
      | [] => none
      | c2 :: r2 =>
        if c2 = cbc then some (JVal.obj [], r2)
        else
          match pMembers f (c2 :: r2) with
          | some (es, r) => some (JVal.obj es, r)
          | none => none
    else none
/-- Decoder for the members of a nonempty object, positioned at the
opening quote of a key; consumes the closing brace. -/
def pMembers : Nat → Str → Option (List (Str × JVal) × Str)
  | 0, _ => none
  | _ + 1, [] => none
  | f + 1, c :: rest =>
    if c = dqc then
      match parseStringBody rest with
      | some (k, r1) =>
        match skipWs r1 with
        | c2 :: r3 =>
          if c2 = ':' then
            match pVal f (skipWs r3) with
            | some (v, r5) =>
              match skipWs r5 with
              | c3 :: r7 =>
                if c3 = ',' then
                  match pMembers f (skipWs r7) with
                  | some (es, r8) => some ((k, v) :: es, r8)
                  | none => none
                else if c3 = cbc then some ([(k, v)], r7)
                else none
              | [] => none
            | none => none
          else none
        | [] => none
      | none => none
    else none
end

/-- `json.loads` on the emitted subset: decode one value and require that
only whitespace remains. -/
def jloads (s : Str) : Option JVal :=
  match pVal (s.length + 1) s with
  | some (v, r) => if skipWs r = [] then some v else none
  | none => none

/-- Lookup in a decoded JSON object with Python-dict semantics: a later
duplicate key overrides an earlier one (`json.loads` builds the dict by
inserting the entries in order). -/
def jlookupD : List (Str × JVal) → Str → Option JVal
  | [], _ => none
  | e :: rest, k =>
    match jlookupD rest k with
    | some v => some v
    | none => if e.1 = k then some e.2 else none

/-! ## The locale document (lines 85-96) -/

/-- The text-domain identifier. -/
def domainStr : Str := "autoblogger".data

/-- The locale identifier. -/
def langStr : Str := "vi_VN".data

/-- The metadata object stored under the empty-string key. -/
def metaEntry : JVal :=
  JVal.obj [("domain".data, JVal.str domainStr), ("lang".data, JVal.str langStr)]

/-- The entry list of the domain-level object: the dict
`(empty string) ↦ metadata` merged with all translations in order, with
Python-dict update semantics. -/
def localeEntries (tbl : List (Str × Str)) : List (Str × JVal) :=
  tbl.foldl (fun acc kv => dictInsert acc kv.1 (JVal.str kv.2)) [([], metaEntry)]

/-- The whole `json_data` structure of lines 85-96. -/
def localeDocument (tbl : List (Str × Str)) : JVal :=
  JVal.obj [("domain".data, JVal.str domainStr),
            ("locale_data".data, JVal.obj [(domainStr, JVal.obj (localeEntries tbl))])]

/-! ## File system model and the whole script -/

/-- The file system: an association list from paths to file contents. -/
abbrev FS := List (Str × Str)

/-- Reading a file: the content stored under the path, if any. -/
def fsRead : FS → Str → Option Str
  | [], _ => none
  | e :: rest, p => if e.1 = p then some e.2 else fsRead rest p

/-- Writing a file (creating it or overwriting the previous content). -/
def fsWrite (fs : FS) (p c : Str) : FS := dictInsert fs p c

/-- `os.unlink`: remove every entry stored under the path. -/
def fsUnlink (fs : FS) (p : Str) : FS := fs.filter (fun e => decide (e.1 ≠ p))

/-- The primary (admin) build manifest path (line 15). -/
def adminAssetPath : Str := "assets/js/admin/build/index.asset.php".data

/-- The secondary (editor) build manifest path (line 101). -/
def editorAssetPath : Str := "assets/js/editor/build/index.asset.php".data

/-- The translation source path (line 31). -/
def poPath : Str := "languages/autoblogger-vi.po".data

/-- The fixed part of every generated file path, also the fixed part of
the cleanup glob pattern. -/
def globStem : Str := "languages/autoblogger-vi_VN-".data

/-- The output path for a given hash (line 118). -/
def jsonPath (h : Str) : Str := globStem ++ (h ++ ".json".data)

/-- `os.path.basename`: the part of the path after the last slash. -/
def baseName (p : Str) : Str := (p.reverse.takeWhile (fun c => decide (c ≠ '/'))).reverse

/-- `strEndsWith sfx s` is true when `sfx` is a final segment of `s`. -/
def strEndsWith (sfx s : Str) : Bool := strStartsWith sfx.reverse s.reverse

/-- Whether a path is matched by the glob pattern
`languages/autoblogger-vi_VN-*.json` (line 126): the fixed stem, then any
run of characters without a slash, then `.json`. -/
def matchesGlob (p : Str) : Bool :=
  strStartsWith globStem p &&
    (strEndsWith ".json".data (p.drop globStem.length) &&
      ((p.drop globStem.length).take ((p.drop globStem.length).length - 5)).all
        (fun c => decide (c ≠ '/')))

/-- The observable outcome of a successful run: the final file system,
the `created_files` basenames, the written files with their contents, and
the deleted paths. -/
structure RunOut where
  fs : FS
  created : List Str
  written : List (Str × Str)
  deleted : List Str
deriving DecidableEq

/-- One iteration of the builds loop (lines 105-123): skip the target if
its manifest is missing or the pattern does not match; otherwise write the
document under the hash-named path and record the basename. -/
def emitStep (content : Str) (st : FS × List Str × List (Str × Str)) (assetPath : Str) :
    FS × List Str × List (Str × Str) :=
  match fsRead st.1 assetPath with
  | none => st
  | some c =>
    match extractHash c with
    | none => st
    | some hv =>
      (fsWrite st.1 (jsonPath hv) content,
        st.2.1 ++ [baseName (jsonPath hv)],
        st.2.2 ++ [(jsonPath hv, content)])

/-- The builds loop over the two targets, in dict insertion order
(admin first, then editor). -/
def emitPhase (content : Str) (fs : FS) : FS × List Str × List (Str × Str) :=
  List.foldl (emitStep content) (fs, [], []) [adminAssetPath, editorAssetPath]

/-- The cleanup of lines 126-131: glob the generated-file pattern, delete
every matched file whose basename was not just written. -/
def cleanupPhase (fs : FS) (created : List Str) : FS × List Str :=
  let old_files := (fs.map Prod.fst).filter matchesGlob
  let deleted := old_files.filter (fun p => decide (baseName p ∉ created))
  (List.foldl fsUnlink fs deleted, deleted)

/-- The whole script run on a file system: `none` models `exit(1)`.
Order of effects as in the source: read the admin manifest and extract the
hash (fatal on failure), read the translation source (fatal when missing),
parse it, build and serialize the document once, run the builds loop, then
the cleanup. -/
def runScript (fs : FS) : Option RunOut :=
  match fsRead fs adminAssetPath with
  | none => none
  | some acontent =>
    match extractHash acontent with
    | none => none
    | some _ =>
      match fsRead fs poPath with
      | none => none
      | some poContent =>
        let tbl := parsePO (splitLines poContent)
        let content := serJVal 0 (localeDocument tbl)
        let est := emitPhase content fs
        let cln := cleanupPhase est.1 est.2.1
        some ⟨cln.1, est.2.1, est.2.2, cln.2⟩

/-! ## Concrete inputs used in witnesses, and derived closed forms -/

/-- The manifest content of the concrete scenario in the spec: the token
written there is `abcdef0123456789abcdef0123456789extra`. -/
def extraManifest : Str :=
  versionLit ++ ("abcdef0123456789abcdef0123456789extra".data ++ [sqc])

/-- The same scenario with an all-hexadecimal 38-character token. -/
def allHexManifest : Str :=
  versionLit ++ ("abcdef0123456789abcdef0123456789abcdef".data ++ [sqc])

/-- The expected 32-character hash of the concrete scenario. -/
def firstHash : Str := "abcdef0123456789abcdef0123456789".data

/-- A manifest with a 40-character hexadecimal token, used to instantiate
the C2 theorem. -/
def fortyManifest : Str :=
  versionLit ++ ("0123456789abcdef0123456789abcdef01234567".data ++ [sqc])

/-- The 40-character token of `fortyManifest`. -/
def fortyToken : Str := "0123456789abcdef0123456789abcdef01234567".data

/-- The five lines of the concrete parsing scenario. -/
def helloEmptyLines : List Str :=
  [msgidMark ++ (dqc :: "Hello".data ++ [dqc]),
   msgstrMark ++ (dqc :: "Xin chào".data ++ [dqc]),
   [],
   msgidMark ++ (dqc :: "Empty".data ++ [dqc]),
   msgstrMark ++ [dqc, dqc]]

/-- A directory with one stale generated file and the unrelated source
file. -/
def staleFS : FS := [(jsonPath "0a".data, "x".data), (poPath, "y".data)]

/-- A directory containing only the freshly written file. -/
def freshFS : FS := [(jsonPath "1b".data, "x".data)]

/-- The basenames written by the current run in the C7 witness. -/
def writtenBases : List Str := [baseName (jsonPath "1b".data)]

/-- A file system with an admin manifest and translation source but no
editor manifest. -/
def adminOnlyFS : FS :=
  [(adminAssetPath, fortyManifest), (poPath, "msgid x".data)]

/-- The result of the builds loop, expressed by the admin hash and the
state of the editor manifest. -/
def emitResult (content : Str) (fs : FS) (hv : Str) (ed : Option Str) :
    FS × List Str × List (Str × Str) :=
  match ed with
  | none =>
    (fsWrite fs (jsonPath hv) content, [baseName (jsonPath hv)], [(jsonPath hv, content)])
  | some ec =>
    match extractHash ec with
    | none =>
      (fsWrite fs (jsonPath hv) content, [baseName (jsonPath hv)], [(jsonPath hv, content)])
    | some hv2 =>
      (fsWrite (fsWrite fs (jsonPath hv) content) (jsonPath hv2) content,
        [baseName (jsonPath hv)] ++ [baseName (jsonPath hv2)],
        [(jsonPath hv, content)] ++ [(jsonPath hv2, content)])

/-- The editor manifest content used in witnesses. -/
def editorManifest : Str := versionLit ++ ("00ff".data ++ [sqc])

/-- A file system with both manifests (with different hashes) and a
translation source. -/
def bothFS : FS :=
  [(adminAssetPath, fortyManifest), (editorAssetPath, editorManifest),
   (poPath, "msgid x".data)]

/-- Looking up a source string under `locale_data` at the domain level of
a decoded document, with Python-dict lookup at every level. -/
def domainLookup (doc : JVal) (k : Str) : Option JVal :=
  match doc with
  | JVal.obj es =>
    (match jlookupD es ("locale_data".data) with
     | some (JVal.obj es2) =>
       (match jlookupD es2 domainStr with
        | some (JVal.obj es3) => jlookupD es3 k
        | some (JVal.str _) => none
        | none => none)
     | some (JVal.str _) => none
     | none => none)
  | JVal.str _ => none

/-! ## Generic lemmas about dict insertion and lookup -/

theorem mem_dictInsert {α β : Type} [DecidableEq α] (d : List (α × β)) (k a : α) (v b : β)
    (h : (a, b) ∈ dictInsert d k v) : (a, b) ∈ d ∨ (a = k ∧ b = v) := by
  induction d with
  | nil =>
    simp only [dictInsert, List.mem_singleton, Prod.mk.injEq] at h
    exact Or.inr h
  | cons e rest ih =>
    obtain ⟨k0, v0⟩ := e
    by_cases hk : k0 = k
    · simp only [dictInsert, if_pos hk, List.mem_cons, Prod.mk.injEq] at h
      rcases h with ⟨ha, hb⟩ | h
      · exact Or.inr ⟨ha.trans hk, hb⟩
      · exact Or.inl (List.mem_cons_of_mem _ h)
    · simp only [dictInsert, if_neg hk, List.mem_cons] at h
      rcases h with h | h
      · exact Or.inl (List.mem_cons.mpr (Or.inl h))
      · rcases ih h with h | h
        · exact Or.inl (List.mem_cons_of_mem _ h)
        · exact Or.inr h

theorem jlookupD_dictInsert_ne (d : List (Str × JVal)) (k1 k : Str) (v : JVal)
    (h : k1 ≠ k) : jlookupD (dictInsert d k1 v) k = jlookupD d k := by
  induction d with
  | nil => simp [dictInsert, jlookupD, h]
  | cons e rest ih =>
    obtain ⟨k0, v0⟩ := e
    by_cases hk : k0 = k1
    · subst hk
      simp only [dictInsert, if_pos rfl, jlookupD]
      cases hr : jlookupD rest k
      · simp [h]
      · rfl
    · simp only [dictInsert, if_neg hk, jlookupD, ih]

theorem jlookupD_foldl_not_mem (tbl : List (Str × Str)) (acc : List (Str × JVal)) (k : Str)
    (h : ∀ kv ∈ tbl, kv.1 ≠ k) :
    jlookupD (tbl.foldl (fun a kv => dictInsert a kv.1 (JVal.str kv.2)) acc) k
      = jlookupD acc k := by
  induction tbl generalizing acc with
  | nil => rfl
  | cons kv rest ih =>
    have hk : kv.1 ≠ k := h kv (List.mem_cons_self _ _)
    rw [List.foldl_cons, ih _ (fun e he => h e (List.mem_cons_of_mem _ he)),
      jlookupD_dictInsert_ne _ _ _ _ hk]

theorem mem_foldl_dictInsert (tbl : List (Str × Str)) (acc : List (Str × JVal)) (a : Str)
    (b : JVal) (h : (a, b) ∈ tbl.foldl (fun ac kv => dictInsert ac kv.1 (JVal.str kv.2)) acc) :
    (a, b) ∈ acc ∨ ∃ kv ∈ tbl, a = kv.1 ∧ b = JVal.str kv.2 := by
  induction tbl generalizing acc with
  | nil => exact Or.inl h
  | cons kv rest ih =>
    rw [List.foldl_cons] at h
    rcases ih _ h with h | h
    · rcases mem_dictInsert _ _ _ _ _ h with h | h
      · exact Or.inl h
      · exact Or.inr ⟨kv, List.mem_cons_self _ _, h⟩
    · obtain ⟨e, he, hee⟩ := h
      exact Or.inr ⟨e, List.mem_cons_of_mem _ he, hee⟩

/-! ## Parser invariants: keys of the translation table are never empty -/

theorem processLine_translations (st : PState) (line : Str) :
    (processLine st line).translations = st.translations ∨
      ((processLine st line).translations
          = dictInsert st.translations st.current_msgid st.current_msgstr ∧
        st.current_msgid ≠ ([] : Str)) := by
  unfold processLine
  by_cases h1 : strStartsWith msgidMark (pstrip line) = true
  · by_cases hc : st.current_msgid ≠ ([] : Str) ∧ st.current_msgstr ≠ ([] : Str)
    · exact Or.inr ⟨by simp [h1, hc], hc.1⟩
    · exact Or.inl (by simp [h1, hc])
  · by_cases h2 : strStartsWith msgstrMark (pstrip line) = true
    · exact Or.inl (by simp [h1, h2])
    · cases hl : pstrip line with
      | nil =>
        rw [hl] at h1 h2
        by_cases hc : st.current_msgid ≠ ([] : Str) ∧ st.current_msgstr ≠ ([] : Str)
        · exact Or.inr ⟨by simp [h1, h2, hl, hc], hc.1⟩
        · exact Or.inl (by simp [h1, h2, hl, hc])
      | cons c tail =>
        rw [hl] at h1 h2
        by_cases h3 : c = dqc
        · subst h3
          by_cases h4 : st.in_msgid = true
          · exact Or.inl (by simp [h1, h2, hl, h4])
          · by_cases h5 : st.in_msgstr = true
            · exact Or.inl (by simp [h1, h2, hl, h4, h5])
            · exact Or.inl (by simp [h1, h2, hl, h4, h5])
        · exact Or.inl (by simp [h1, h2, hl, h3])

theorem flushFinal_shape (st : PState) :
    flushFinal st = st.translations ∨
      (flushFinal st = dictInsert st.translations st.current_msgid st.current_msgstr ∧
        st.current_msgid ≠ ([] : Str)) := by
  unfold flushFinal
  by_cases hc : st.current_msgid ≠ ([] : Str) ∧ st.current_msgstr ≠ ([] : Str)
  · exact Or.inr ⟨by simp [hc], hc.1⟩
  · exact Or.inl (by simp [hc])

theorem processLine_keys (st : PState) (line : Str)
    (h : ∀ kv ∈ st.translations, kv.1 ≠ ([] : Str)) :
    ∀ kv ∈ (processLine st line).translations, kv.1 ≠ ([] : Str) := by
  intro kv hkv
  rcases processLine_translations st line with hs | ⟨hs, hid⟩
  · exact h _ (hs ▸ hkv)
  · rcases mem_dictInsert _ _ _ _ _ (hs ▸ hkv) with hm | hm
    · exact h _ hm
    · rw [hm.1]; exact hid

theorem foldl_processLine_keys (lines : List Str) (st : PState)
    (h : ∀ kv ∈ st.translations, kv.1 ≠ ([] : Str)) :
    ∀ kv ∈ (lines.foldl processLine st).translations, kv.1 ≠ ([] : Str) := by
  induction lines generalizing st with
  | nil => exact h
  | cons l rest ih => exact ih _ (processLine_keys st l h)

theorem parsePO_keys (lines : List Str) :
    ∀ kv ∈ parsePO lines, kv.1 ≠ ([] : Str) := by
  intro kv hkv
  have h0 := foldl_processLine_keys lines initPState (by simp [initPState])
  unfold parsePO at hkv
  have hkv1 := (List.mem_filter.mp hkv).1
  rcases flushFinal_shape (lines.foldl processLine initPState) with hs | ⟨hs, hid⟩
  · exact h0 _ (hs ▸ hkv1)
  · rcases mem_dictInsert _ _ _ _ _ (hs ▸ hkv1) with hm | hm
    · exact h0 _ hm
    · rw [hm.1]; exact hid

theorem parsePO_values (lines : List Str) :
    ∀ kv ∈ parsePO lines, kv.2 ≠ ([] : Str) := by
  intro kv hkv
  have := (List.mem_filter.mp hkv).2
  simpa using this

/-! ## Claim theorems: hash extraction -/

/-- C1 (counterexample): on the manifest containing
`version => abcdef0123456789abcdef0123456789extra`, the hash extraction
does not succeed with `abcdef0123456789abcdef0123456789`: the pattern
requires the token to consist of `[a-f0-9]` characters up to the closing
quote, and `x` in `extra` is not one, so there is no match at all. -/
theorem c1_extra_suffix_counterexample :
    ¬ (extractHash extraManifest = some firstHash) := by decide

/-- C1 (amended): the extraction fails (no match) on the manifest whose
token carries the non-hexadecimal suffix `extra`; for a manifest whose
token is all-hexadecimal and longer than 32 characters, the extraction
succeeds and returns exactly the first 32 characters. -/
theorem c1_truncation_amended :
    extractHash extraManifest = none ∧ extractHash allHexManifest = some firstHash := by
  constructor
  · decide
  · decide

/-- C2: whenever the version pattern matches with captured token `tok`,
the extracted build hash is exactly the first 32 characters of `tok`,
whatever the token's length. -/
theorem c2_hash_is_take32_of_token (content tok : Str)
    (h : reSearchVersion content = some tok) :
    extractHash content = some (List.take 32 tok) := by
  simp [extractHash, h]

/-- Witness for C2 at a concrete manifest whose token has 40 characters. -/
theorem c2_hash_is_take32_of_token_witness :
    reSearchVersion fortyManifest = some fortyToken ∧
      extractHash fortyManifest = some (List.take 32 fortyToken) :=
  ⟨by decide, c2_hash_is_take32_of_token fortyManifest fortyToken (by decide)⟩

/-! ## Claim theorems: the parser -/

/-- C4: parsing `msgid "Hello" / msgstr "Xin chào"`, a blank line, and
`msgid "Empty" / msgstr ""` yields exactly one entry, mapping `Hello` to
`Xin chào`; the entry with the empty translated value is dropped. -/
theorem c4_hello_empty_scenario :
    parsePO helloEmptyLines = [("Hello".data, "Xin chào".data)] := by decide

/-- C5: no entry of the domain-level object of the emitted locale
document has the empty string as its value: every pair placed there is
either the metadata object or a translation that survived the
empty-value filter. -/
theorem c5_no_empty_value_emitted (lines : List Str) (k : Str) (jv : JVal)
    (h : (k, jv) ∈ localeEntries (parsePO lines)) : jv ≠ JVal.str ([] : Str) := by
  unfold localeEntries at h
  rcases mem_foldl_dictInsert _ _ _ _ h with h | h
  · simp only [List.mem_singleton, Prod.mk.injEq] at h
    rw [h.2]
    simp [metaEntry]
  · obtain ⟨kv, hm, -, hv⟩ := h
    rw [hv]
    intro e
    exact parsePO_values lines kv hm (JVal.str.injEq _ _ ▸ e)

/-- Witness for C5: the `Hello` entry of the concrete scenario is in the
domain-level object and its value is not the empty string. -/
theorem c5_no_empty_value_emitted_witness :
    (("Hello".data, JVal.str "Xin chào".data) ∈ localeEntries (parsePO helloEmptyLines)) ∧
      JVal.str "Xin chào".data ≠ JVal.str ([] : Str) :=
  ⟨List.mem_cons_of_mem _ (List.mem_cons_self _ _),
    c5_no_empty_value_emitted helloEmptyLines _ _
      (List.mem_cons_of_mem _ (List.mem_cons_self _ _))⟩

/-- C9: the translation table never contains an entry with empty key (the
flush requires a nonempty `current_msgid`), and therefore the metadata
object under the empty-string key of the emitted document is never
overwritten by a parsed translation. -/
theorem c9_empty_key_is_metadata (lines : List Str) :
    (∀ kv ∈ parsePO lines, kv.1 ≠ ([] : Str)) ∧
      jlookupD (localeEntries (parsePO lines)) ([] : Str) = some metaEntry := by
  refine ⟨parsePO_keys lines, ?_⟩
  unfold localeEntries
  rw [jlookupD_foldl_not_mem _ _ _ (parsePO_keys lines)]
  rfl

/-- Witness for C9 at the concrete scenario. -/
theorem c9_empty_key_is_metadata_witness :
    ("Hello".data : Str) ≠ ([] : Str) ∧
      jlookupD (localeEntries (parsePO helloEmptyLines)) ([] : Str) = some metaEntry :=
  ⟨(c9_empty_key_is_metadata helloEmptyLines).1 ("Hello".data, "Xin chào".data) (by decide),
    (c9_empty_key_is_metadata helloEmptyLines).2⟩

/-! ## File-system lemmas -/

theorem fsRead_dictInsert_ne (fs : FS) (p c q : Str) (h : q ≠ p) :
    fsRead (dictInsert fs p c) q = fsRead fs q := by
  induction fs with
  | nil => simp [dictInsert, fsRead, Ne.symm h]
  | cons e rest ih =>
    obtain ⟨k0, v0⟩ := e
    by_cases hk : k0 = p
    · have hq : ¬ (k0 = q) := fun e0 => h (e0.symm.trans hk)
      simp [dictInsert, hk, fsRead, hq, Ne.symm h]
    · by_cases hq : k0 = q
      · simp [dictInsert, hk, fsRead, hq, h]
      · simp [dictInsert, hk, fsRead, hq, ih]

theorem mem_map_fst_fsUnlink (fs : FS) (q p : Str) :
    p ∈ (fsUnlink fs q).map Prod.fst ↔ p ∈ fs.map Prod.fst ∧ p ≠ q := by
  simp only [fsUnlink, List.mem_map, List.mem_filter, decide_eq_true_eq]
  constructor
  · rintro ⟨e, ⟨he, hne⟩, rfl⟩
    exact ⟨⟨e, he, rfl⟩, hne⟩
  · rintro ⟨⟨e, he, rfl⟩, hne⟩
    exact ⟨e, ⟨he, hne⟩, rfl⟩

theorem mem_map_fst_unlinkFold (del : List Str) (fs : FS) (p : Str) :
    p ∈ (List.foldl fsUnlink fs del).map Prod.fst ↔ p ∈ fs.map Prod.fst ∧ p ∉ del := by
  induction del generalizing fs with
  | nil => simp
  | cons d rest ih =>
    rw [List.foldl_cons, ih, mem_map_fst_fsUnlink]
    simp only [List.mem_cons]
    tauto

theorem fsRead_fsUnlink_ne (fs : FS) (d q : Str) (hd : q ≠ d) :
    fsRead (fsUnlink fs d) q = fsRead fs q := by
  induction fs with
  | nil => rfl
  | cons e rest ih =>
    obtain ⟨k0, v0⟩ := e
    by_cases hkd : k0 = d
    · have hq : ¬ (k0 = q) := fun e0 => hd (e0.symm.trans hkd)
      rw [show fsUnlink ((k0, v0) :: rest) d = fsUnlink rest d from by
          simp [fsUnlink, List.filter_cons, hkd],
        ih]
      simp [fsRead, hq]
    · rw [show fsUnlink ((k0, v0) :: rest) d = (k0, v0) :: fsUnlink rest d from by
          simp [fsUnlink, List.filter_cons, hkd]]
      by_cases hq : k0 = q
      · simp [fsRead, hq]
      · simp [fsRead, hq, ih]

theorem fsRead_unlinkFold_not_mem (del : List Str) (fs : FS) (q : Str) (h : q ∉ del) :
    fsRead (List.foldl fsUnlink fs del) q = fsRead fs q := by
  induction del generalizing fs with
  | nil => rfl
  | cons d rest ih =>
    rw [List.foldl_cons, ih _ (fun hm => h (List.mem_cons_of_mem _ hm)),
      fsRead_fsUnlink_ne _ _ _ (fun e0 => h (by rw [e0]; exact List.mem_cons_self _ _))]

/-! ## Path disequalities -/

theorem jsonPath_ne_admin (h : Str) : jsonPath h ≠ adminAssetPath := by
  intro e
  have e' : 'l' :: ("anguages/autoblogger-vi_VN-".data ++ (h ++ ".json".data))
      = 'a' :: "ssets/js/admin/build/index.asset.php".data := e
  injection e' with e1 e2
  exact absurd e1 (by decide)

theorem jsonPath_ne_editor (h : Str) : jsonPath h ≠ editorAssetPath := by
  intro e
  have e' : 'l' :: ("anguages/autoblogger-vi_VN-".data ++ (h ++ ".json".data))
      = 'a' :: "ssets/js/editor/build/index.asset.php".data := e
  injection e' with e1 e2
  exact absurd e1 (by decide)

theorem jsonPath_ne_po (h : Str) : jsonPath h ≠ poPath := by
  intro e
  have hlen : (jsonPath h).length = poPath.length := by rw [e]
  rw [jsonPath, List.length_append, List.length_append,
    show globStem.length = 28 from by decide,
    show (".json".data).length = 5 from by decide,
    show poPath.length = 27 from by decide] at hlen
  omega

/-! ## Claim theorems: the reconciler (cleanup of lines 126-131) -/

/-- C7: the reconciler deletes exactly the files whose path is present,
matches the glob pattern, and whose basename was not just written; it
never deletes a non-matching path; it deletes nothing when every matched
file was just written; and the surviving file set is exactly the
original one minus those deletions. -/
theorem mem_cleanup_deleted (fs : FS) (created : List Str) (p : Str) :
    p ∈ (cleanupPhase fs created).2 ↔
      (p ∈ fs.map Prod.fst ∧ matchesGlob p = true ∧ baseName p ∉ created) := by
  show p ∈ ((fs.map Prod.fst).filter matchesGlob).filter
      (fun p => decide (baseName p ∉ created)) ↔ _
  rw [List.mem_filter, List.mem_filter]
  simp only [decide_eq_true_eq]
  tauto

theorem c7_reconciler_deletes_exactly (fs : FS) (created : List Str) :
    (∀ p, p ∈ (cleanupPhase fs created).2 ↔
        (p ∈ fs.map Prod.fst ∧ matchesGlob p = true ∧ baseName p ∉ created)) ∧
    ((∀ p ∈ fs.map Prod.fst, matchesGlob p = true → baseName p ∈ created) →
        (cleanupPhase fs created).2 = []) ∧
    (∀ p, p ∈ ((cleanupPhase fs created).1).map Prod.fst ↔
        (p ∈ fs.map Prod.fst ∧ ¬(matchesGlob p = true ∧ baseName p ∉ created))) := by
  refine ⟨mem_cleanup_deleted fs created, ?_, ?_⟩
  · intro hall
    apply List.filter_eq_nil_iff.mpr
    intro p hp
    have hp' := List.mem_filter.mp hp
    simp only [decide_eq_true_eq, Decidable.not_not]
    exact hall p hp'.1 hp'.2
  · intro p
    rw [show ((cleanupPhase fs created).1) = List.foldl fsUnlink fs (cleanupPhase fs created).2
        from rfl]
    rw [mem_map_fst_unlinkFold, mem_cleanup_deleted]
    tauto

/-- Witness for C7: the stale file is deleted; when every matched file
was just written, nothing is deleted. -/
theorem c7_reconciler_deletes_exactly_witness :
    (jsonPath "0a".data) ∈ (cleanupPhase staleFS writtenBases).2 ∧
      (cleanupPhase freshFS writtenBases).2 = [] :=
  ⟨((c7_reconciler_deletes_exactly staleFS writtenBases).1 _).mpr (by decide),
    (c7_reconciler_deletes_exactly freshFS writtenBases).2.1 (by decide)⟩

/-! ## Claim theorems: exit codes -/

/-- C6: the run aborts with exit code 1 exactly when the admin manifest
is missing, the version pattern cannot be extracted from it, or the
translation source is missing; in every other case it exits 0, and in
particular a missing editor manifest is only skipped: the run still
succeeds, writing exactly the one admin file. -/
theorem c6_exit_one_iff (fs : FS) :
    (runScript fs = none ↔
      (fsRead fs adminAssetPath = none ∨
        (∃ c, fsRead fs adminAssetPath = some c ∧ extractHash c = none) ∨
        fsRead fs poPath = none)) ∧
    (∀ out, runScript fs = some out → fsRead fs editorAssetPath = none →
      out.created.length = 1) := by
  constructor
  · constructor
    · intro h
      cases h1 : fsRead fs adminAssetPath with
      | none => exact Or.inl rfl
      | some c =>
        cases h2 : extractHash c with
        | none => exact Or.inr (Or.inl ⟨c, rfl, h2⟩)
        | some hv =>
          cases h3 : fsRead fs poPath with
          | none => exact Or.inr (Or.inr rfl)
          | some pc => simp [runScript, h1, h2, h3] at h
    · rintro (h | ⟨c, hc, he⟩ | h)
      · simp [runScript, h]
      · simp [runScript, hc, he]
      · cases h1 : fsRead fs adminAssetPath with
        | none => simp [runScript, h1]
        | some c =>
          cases h2 : extractHash c with
          | none => simp [runScript, h1, h2]
          | some hv => simp [runScript, h1, h2, h]
  · intro out hrun hed
    cases h1 : fsRead fs adminAssetPath with
    | none => simp [runScript, h1] at hrun
    | some c =>
      cases h2 : extractHash c with
      | none => simp [runScript, h1, h2] at hrun
      | some hv =>
        cases h3 : fsRead fs poPath with
        | none => simp [runScript, h1, h2, h3] at hrun
        | some pc =>
          have hstep : fsRead
              (fsWrite fs (jsonPath hv)
                (serJVal 0 (localeDocument (parsePO (splitLines pc)))))
              editorAssetPath = none := by
            rw [fsWrite, fsRead_dictInsert_ne _ _ _ _ (jsonPath_ne_editor hv).symm]
            exact hed
          simp only [runScript, h1, h2, h3, emitPhase, emitStep, List.foldl_cons,
            List.foldl_nil, hstep] at hrun
          injection hrun with hout
          rw [← hout]
          rfl

/-- Witness for C6: on `adminOnlyFS` the run succeeds and creates exactly
one file. -/
theorem c6_exit_one_iff_witness :
    ∃ out, runScript adminOnlyFS = some out ∧ out.created.length = 1 := by
  cases h : runScript adminOnlyFS with
  | none => exact absurd h (by decide)
  | some out => exact ⟨out, rfl, (c6_exit_one_iff adminOnlyFS).2 out h (by decide)⟩

/-! ## The emit phase in closed form, and claim C10 -/

theorem emitPhase_eq (content : Str) (fs : FS) (c hv : Str)
    (hA : fsRead fs adminAssetPath = some c) (hE : extractHash c = some hv) :
    emitPhase content fs = emitResult content fs hv (fsRead fs editorAssetPath) := by
  unfold emitPhase emitResult
  rw [List.foldl_cons, List.foldl_cons, List.foldl_nil]
  simp only [emitStep, hA, hE]
  rw [show fsRead (fsWrite fs (jsonPath hv) content) editorAssetPath
      = fsRead fs editorAssetPath from
    fsRead_dictInsert_ne _ _ _ _ (jsonPath_ne_editor hv).symm]
  cases fsRead fs editorAssetPath with
  | none => rfl
  | some ec =>
    cases extractHash ec with
    | none => rfl
    | some hv2 => rfl

theorem emitResult_written_content (content : Str) (fs : FS) (hv : Str) (ed : Option Str) :
    ∀ e ∈ (emitResult content fs hv ed).2.2, e.2 = content := by
  intro e he
  cases ed with
  | none =>
    simp only [emitResult, List.mem_singleton] at he
    rw [he]
  | some ec =>
    cases hx : extractHash ec with
    | none =>
      simp only [emitResult, hx, List.mem_singleton] at he
      rw [he]
    | some hv2 =>
      simp only [emitResult, hx, List.mem_append, List.mem_singleton] at he
      rcases he with he | he <;> rw [he]

/-- C10: all files written in one run carry byte-identical content, the
serialization of the one document built from the translation source
before the loop; the per-target hash affects only the file names. -/
theorem c10_uniform_written_content (fs : FS) (out : RunOut)
    (h : runScript fs = some out) :
    (∀ pc, fsRead fs poPath = some pc →
      ∀ e ∈ out.written, e.2 = serJVal 0 (localeDocument (parsePO (splitLines pc)))) ∧
    (∀ e1 ∈ out.written, ∀ e2 ∈ out.written, e1.2 = e2.2) := by
  cases h1 : fsRead fs adminAssetPath with
  | none => simp [runScript, h1] at h
  | some c =>
    cases h2 : extractHash c with
    | none => simp [runScript, h1, h2] at h
    | some hv =>
      cases h3 : fsRead fs poPath with
      | none => simp [runScript, h1, h2, h3] at h
      | some pc =>
        simp only [runScript, h1, h2, h3] at h
        rw [emitPhase_eq _ fs c hv h1 h2] at h
        injection h with hout
        subst hout
        have hw : ∀ e ∈ (emitResult (serJVal 0 (localeDocument (parsePO (splitLines pc))))
            fs hv (fsRead fs editorAssetPath)).2.2,
            e.2 = serJVal 0 (localeDocument (parsePO (splitLines pc))) :=
          emitResult_written_content _ _ _ _
        constructor
        · intro pc2 hpc2 e he
          injection hpc2 with hpc
          subst hpc
          exact hw e he
        · intro e1 he1 e2 he2
          rw [hw e1 he1, hw e2 he2]

/-- Witness for C10: a run over both targets writes two files whose
contents coincide. -/
theorem c10_uniform_written_content_witness :
    ∃ out, runScript bothFS = some out ∧ out.written.length = 2 ∧
      (∀ e1 ∈ out.written, ∀ e2 ∈ out.written, e1.2 = e2.2) := by
  cases h : runScript bothFS with
  | none => exact absurd h (by decide)
  | some out =>
    refine ⟨out, rfl, ?_, (c10_uniform_written_content bothFS out h).2⟩
    have hd : (runScript bothFS).map (fun o => o.written.length) = some 2 := by decide
    rw [h] at hd
    simpa using hd

/-! ## Claim C8: idempotence of the whole pipeline -/

theorem mem_map_fst_dictInsert (fs : FS) (q c p : Str) :
    p ∈ (dictInsert fs q c).map Prod.fst ↔ p ∈ fs.map Prod.fst ∨ p = q := by
  induction fs with
  | nil => simp [dictInsert]
  | cons e rest ih =>
    obtain ⟨k0, v0⟩ := e
    by_cases hk : k0 = q
    · subst hk
      rw [show dictInsert ((k0, v0) :: rest) k0 c = (k0, c) :: rest from by
        simp [dictInsert]]
      simp only [List.map_cons, List.mem_cons]
      tauto
    · simp only [dictInsert, if_neg hk, List.map_cons, List.mem_cons, ih]
      tauto

theorem emitResult_fsRead_ne (content : Str) (fs : FS) (hv : Str) (ed : Option Str) (q : Str)
    (hq : ∀ h2, q ≠ jsonPath h2) :
    fsRead (emitResult content fs hv ed).1 q = fsRead fs q := by
  cases ed with
  | none =>
    simp only [emitResult, fsWrite]
    exact fsRead_dictInsert_ne _ _ _ _ (hq hv)
  | some ec =>
    cases hx : extractHash ec with
    | none =>
      simp only [emitResult, hx, fsWrite]
      exact fsRead_dictInsert_ne _ _ _ _ (hq hv)
    | some hv2 =>
      simp only [emitResult, hx, fsWrite]
      rw [fsRead_dictInsert_ne _ _ _ _ (hq hv2), fsRead_dictInsert_ne _ _ _ _ (hq hv)]

theorem emitResult_mem_fst (content : Str) (fs : FS) (hv : Str) (ed : Option Str) (p : Str)
    (hp : p ∈ (emitResult content fs hv ed).1.map Prod.fst) :
    p ∈ fs.map Prod.fst ∨ baseName p ∈ (emitResult content fs hv ed).2.1 := by
  cases ed with
  | none =>
    simp only [emitResult, fsWrite] at hp ⊢
    rcases (mem_map_fst_dictInsert _ _ _ _).mp hp with h | h
    · exact Or.inl h
    · subst h
      exact Or.inr (List.mem_singleton.mpr rfl)
  | some ec =>
    cases hx : extractHash ec with
    | none =>
      simp only [emitResult, hx, fsWrite] at hp ⊢
      rcases (mem_map_fst_dictInsert _ _ _ _).mp hp with h | h
      · exact Or.inl h
      · subst h
        exact Or.inr (List.mem_singleton.mpr rfl)
    | some hv2 =>
      simp only [emitResult, hx, fsWrite] at hp ⊢
      rcases (mem_map_fst_dictInsert _ _ _ _).mp hp with h | h
      · rcases (mem_map_fst_dictInsert _ _ _ _).mp h with h | h
        · exact Or.inl h
        · subst h
          exact Or.inr (by simp)
      · subst h
        exact Or.inr (by simp)

theorem emitResult_snd_indep (content : Str) (fs fs2 : FS) (hv : Str) (ed : Option Str) :
    (emitResult content fs hv ed).2 = (emitResult content fs2 hv ed).2 := by
  cases ed with
  | none => rfl
  | some ec =>
    cases hx : extractHash ec with
    | none => simp only [emitResult, hx]
    | some hv2 => simp only [emitResult, hx]

theorem not_mem_deleted_of_glob_false (fs : FS) (created : List Str) (p : Str)
    (h : matchesGlob p = false) : p ∉ (cleanupPhase fs created).2 := by
  intro hm
  have hh := (mem_cleanup_deleted fs created p).mp hm
  rw [h] at hh
  exact absurd hh.2.1 (by simp)

theorem runScript_closed (fs : FS) (c hv pc : Str)
    (h1 : fsRead fs adminAssetPath = some c) (h2 : extractHash c = some hv)
    (h3 : fsRead fs poPath = some pc) :
    runScript fs = some
      ⟨(cleanupPhase (emitResult (serJVal 0 (localeDocument (parsePO (splitLines pc)))) fs hv
            (fsRead fs editorAssetPath)).1
          (emitResult (serJVal 0 (localeDocument (parsePO (splitLines pc)))) fs hv
            (fsRead fs editorAssetPath)).2.1).1,
        (emitResult (serJVal 0 (localeDocument (parsePO (splitLines pc)))) fs hv
          (fsRead fs editorAssetPath)).2.1,
        (emitResult (serJVal 0 (localeDocument (parsePO (splitLines pc)))) fs hv
          (fsRead fs editorAssetPath)).2.2,
        (cleanupPhase (emitResult (serJVal 0 (localeDocument (parsePO (splitLines pc)))) fs hv
            (fsRead fs editorAssetPath)).1
          (emitResult (serJVal 0 (localeDocument (parsePO (splitLines pc)))) fs hv
            (fsRead fs editorAssetPath)).2.1).2⟩ := by
  simp only [runScript, h1, h2, h3]
  rw [emitPhase_eq _ fs c hv h1 h2]

/-- C8: when a run succeeds, a second run on the resulting file system
also succeeds, writes the same file names with byte-identical contents,
and its reconciler deletes nothing. -/
theorem c8_second_run_idempotent (fs : FS) (out1 : RunOut)
    (h : runScript fs = some out1) :
    ∃ out2, runScript out1.fs = some out2 ∧ out2.written = out1.written ∧
      out2.created = out1.created ∧ out2.deleted = [] := by
  cases h1 : fsRead fs adminAssetPath with
  | none => simp [runScript, h1] at h
  | some c =>
    cases h2 : extractHash c with
    | none => simp [runScript, h1, h2] at h
    | some hv =>
      cases h3 : fsRead fs poPath with
      | none => simp [runScript, h1, h2, h3] at h
      | some pc =>
        rw [runScript_closed fs c hv pc h1 h2 h3] at h
        injection h with hout
        subst hout
        dsimp only
        set C := serJVal 0 (localeDocument (parsePO (splitLines pc))) with hC
        set ED := fsRead fs editorAssetPath with hED
        set ER := emitResult C fs hv ED with hER
        set D1 := (cleanupPhase ER.1 ER.2.1).2 with hD1
        set F1 := (cleanupPhase ER.1 ER.2.1).1 with hF1
        have hndel : ∀ q, matchesGlob q = false → q ∉ D1 := by
          intro q hq
          rw [hD1]
          exact not_mem_deleted_of_glob_false _ _ q hq
        have hF1eq : F1 = List.foldl fsUnlink ER.1 D1 := by
          rw [hF1, hD1]
          exact rfl
        have hreadF1 : ∀ q, matchesGlob q = false → (∀ hx, q ≠ jsonPath hx) →
            fsRead F1 q = fsRead fs q := by
          intro q hq hqj
          rw [hF1eq, fsRead_unlinkFold_not_mem _ _ _ (hndel q hq), hER]
          exact emitResult_fsRead_ne C fs hv ED q hqj
        have hA2 : fsRead F1 adminAssetPath = some c :=
          (hreadF1 _ (by decide) (fun hx => (jsonPath_ne_admin hx).symm)).trans h1
        have hP2 : fsRead F1 poPath = some pc :=
          (hreadF1 _ (by decide) (fun hx => (jsonPath_ne_po hx).symm)).trans h3
        have hE2 : fsRead F1 editorAssetPath = ED :=
          (hreadF1 _ (by decide) (fun hx => (jsonPath_ne_editor hx).symm)).trans hED.symm
        have hsnd := emitResult_snd_indep C F1 fs hv ED
        refine ⟨_, runScript_closed F1 c hv pc hA2 h2 hP2, ?_, ?_, ?_⟩
        · dsimp only
          rw [hE2, ← hC, hsnd, hER]
        · dsimp only
          rw [hE2, ← hC, hsnd, hER]
        · dsimp only
          rw [hE2, ← hC]
          show ((((emitResult C F1 hv ED).1.map Prod.fst).filter matchesGlob).filter
            (fun p => decide (baseName p ∉ (emitResult C F1 hv ED).2.1))) = []
          apply List.filter_eq_nil_iff.mpr
          intro p hp
          simp only [decide_eq_true_eq, Decidable.not_not]
          have hp' := List.mem_filter.mp hp
          have hcr2 : (emitResult C F1 hv ED).2.1 = ER.2.1 := by
            rw [hsnd, hER]
          rw [hcr2]
          rcases emitResult_mem_fst C F1 hv ED p hp'.1 with hmem | hmem
          · rw [hF1eq] at hmem
            have hmem2 := (mem_map_fst_unlinkFold _ _ _).mp hmem
            have hnd := hmem2.2
            rw [hD1] at hnd
            have hiff := (mem_cleanup_deleted ER.1 ER.2.1 p)
            by_cases hb : baseName p ∈ ER.2.1
            · exact hb
            · exact absurd (hiff.mpr ⟨hmem2.1, hp'.2, hb⟩) hnd
          · rw [hcr2] at hmem
            exact hmem

/-- Witness for C8 on the two-target file system. -/
theorem c8_second_run_idempotent_witness :
    ∃ out1 out2, runScript bothFS = some out1 ∧ runScript out1.fs = some out2 ∧
      out2.written = out1.written ∧ out2.created = out1.created ∧ out2.deleted = [] := by
  cases h : runScript bothFS with
  | none => exact absurd h (by decide)
  | some out1 =>
    obtain ⟨out2, h2, hw, hc, hd⟩ := c8_second_run_idempotent bothFS out1 h
    exact ⟨out1, out2, rfl, h2, hw, hc, hd⟩

/-! ## Round trip of the JSON string encoding -/

theorem hexVal_hexDigit : ∀ n < 16, hexVal (hexDigit n) = some n := by decide

theorem escString_nil : escString ([] : Str) = [] := rfl

theorem escString_cons (c : Char) (s : Str) :
    escString (c :: s) = escapeChar c ++ escString s := rfl

theorem psb_dqc (r : Str) : parseStringBody (dqc :: r) = some ([], r) := by
  rw [parseStringBody.eq_def]
  rfl

theorem psb_esc1 (e c2 : Char) (r : Str) (he : unescapeChar e = some c2) (hu : ¬ e = 'u') :
    parseStringBody (bslc :: e :: r)
      = (parseStringBody r).map (fun x => (c2 :: x.1, x.2)) := by
  rw [parseStringBody.eq_def]
  dsimp only
  have hbd : ¬ (bslc = dqc) := by decide
  simp only [hbd, if_false, eq_self_iff_true, if_true, hu, he]
  cases hr : parseStringBody r with
  | none => rfl
  | some x => rfl

theorem psb_u (h1 h2 h3 h4 : Char) (n1 n2 n3 n4 : Nat) (r : Str)
    (e1 : hexVal h1 = some n1) (e2 : hexVal h2 = some n2)
    (e3 : hexVal h3 = some n3) (e4 : hexVal h4 = some n4) :
    parseStringBody (bslc :: 'u' :: h1 :: h2 :: h3 :: h4 :: r)
      = (parseStringBody r).map
          (fun x => (Char.ofNat (4096 * n1 + 256 * n2 + 16 * n3 + n4) :: x.1, x.2)) := by
  rw [parseStringBody.eq_def]
  dsimp only
  have hbd : ¬ (bslc = dqc) := by decide
  simp only [hbd, if_false, eq_self_iff_true, if_true, e1, e2, e3, e4]
  cases hr : parseStringBody r with
  | none => rfl
  | some x => rfl

theorem psb_plain (c : Char) (r : Str) (h1 : ¬ c = dqc) (h2 : ¬ c = bslc)
    (h3 : ¬ c.toNat < 32) :
    parseStringBody (c :: r) = (parseStringBody r).map (fun x => (c :: x.1, x.2)) := by
  rw [parseStringBody.eq_def]
  dsimp only
  simp only [h1, h2, h3, if_false]
  cases hr : parseStringBody r with
  | none => rfl
  | some x => rfl

theorem psb_escape (s : Str) : ∀ r, parseStringBody (escString s ++ (dqc :: r)) = some (s, r) := by
  induction s with
  | nil =>
    intro r
    rw [escString_nil, List.nil_append, psb_dqc]
  | cons c s ih =>
    intro r
    rw [escString_cons, List.append_assoc]
    by_cases h1 : c = dqc
    · subst h1
      rw [show escapeChar dqc = [bslc, dqc] from by decide, List.cons_append,
        List.cons_append, List.nil_append,
        psb_esc1 dqc dqc _ (by decide) (by decide), ih]
      rfl
    · by_cases h2 : c = bslc
      · subst h2
        rw [show escapeChar bslc = [bslc, bslc] from by decide, List.cons_append,
          List.cons_append, List.nil_append,
          psb_esc1 bslc bslc _ (by decide) (by decide), ih]
        rfl
      · by_cases h3 : c = '\n'
        · subst h3
          rw [show escapeChar '\n' = [bslc, 'n'] from by decide, List.cons_append,
            List.cons_append, List.nil_append,
            psb_esc1 'n' '\n' _ (by decide) (by decide), ih]
          rfl
        · by_cases h4 : c = '\t'
          · subst h4
            rw [show escapeChar '\t' = [bslc, 't'] from by decide, List.cons_append,
              List.cons_append, List.nil_append,
              psb_esc1 't' '\t' _ (by decide) (by decide), ih]
            rfl
          · by_cases h5 : c = '\r'
            · subst h5
              rw [show escapeChar '\r' = [bslc, 'r'] from by decide, List.cons_append,
                List.cons_append, List.nil_append,
                psb_esc1 'r' '\r' _ (by decide) (by decide), ih]
              rfl
            · by_cases h6 : c = Char.ofNat 8
              · subst h6
                rw [show escapeChar (Char.ofNat 8) = [bslc, 'b'] from by decide,
                  List.cons_append, List.cons_append, List.nil_append,
                  psb_esc1 'b' (Char.ofNat 8) _ (by decide) (by decide), ih]
                rfl
              · by_cases h7 : c = Char.ofNat 12
                · subst h7
                  rw [show escapeChar (Char.ofNat 12) = [bslc, 'f'] from by decide,
                    List.cons_append, List.cons_append, List.nil_append,
                    psb_esc1 'f' (Char.ofNat 12) _ (by decide) (by decide), ih]
                  rfl
                · by_cases h8 : c.toNat < 32
                  · rw [show escapeChar c
                        = [bslc, 'u', '0', '0', hexDigit (c.toNat / 16), hexDigit (c.toNat % 16)]
                      from by simp [escapeChar, h1, h2, h3, h4, h5, h6, h7, h8]]
                    simp only [List.cons_append, List.nil_append]
                    rw [psb_u _ _ _ _ 0 0 (c.toNat / 16) (c.toNat % 16) _
                        (by decide) (by decide)
                        (hexVal_hexDigit _ (by omega)) (hexVal_hexDigit _ (by omega)),
                      ih]
                    have harith : 4096 * 0 + 256 * 0 + 16 * (c.toNat / 16) + c.toNat % 16
                        = c.toNat := by omega
                    rw [harith, Char.ofNat_toNat]
                    rfl
                  · rw [show escapeChar c = [c] from by
                        simp [escapeChar, h1, h2, h3, h4, h5, h6, h7, h8],
                      List.cons_append, List.nil_append,
                      psb_plain c _ h1 h2 h8, ih]
                    rfl

/-! ## Whitespace and head-shape lemmas for the decoder -/

theorem skipWs_cons_ws (c : Char) (r : Str) (h : isJsonWs c = true) :
    skipWs (c :: r) = skipWs r := by
  simp [skipWs, List.dropWhile_cons, h]

theorem skipWs_cons_nonws (c : Char) (r : Str) (h : isJsonWs c = false) :
    skipWs (c :: r) = c :: r := by
  simp [skipWs, List.dropWhile_cons, h]

theorem skipWs_replicate_sp (n : Nat) (r : Str) :
    skipWs (List.replicate n ' ' ++ r) = skipWs r := by
  induction n with
  | zero => rfl
  | succ n ih =>
    rw [List.replicate_succ, List.cons_append, skipWs_cons_ws _ _ (by decide), ih]

theorem skipWs_nlIndent (d : Nat) (r : Str) : skipWs (nlIndent d ++ r) = skipWs r := by
  rw [nlIndent, List.cons_append, skipWs_cons_ws _ _ (by decide), skipWs_replicate_sp]

theorem serJVal_head (d : Nat) (v : JVal) :
    (∃ t, serJVal d v = dqc :: t) ∨ (∃ t, serJVal d v = obc :: t) := by
  cases v with
  | str s => exact Or.inl ⟨_, rfl⟩
  | obj es =>
    cases es with
    | nil => exact Or.inr ⟨_, rfl⟩
    | cons e es2 => exact Or.inr ⟨_, rfl⟩

theorem skipWs_serJVal (d : Nat) (v : JVal) (X : Str) :
    skipWs (serJVal d v ++ X) = serJVal d v ++ X := by
  rcases serJVal_head d v with ⟨t, ht⟩ | ⟨t, ht⟩ <;>
    rw [ht, List.cons_append, skipWs_cons_nonws _ _ (by decide)]

theorem pVal_ser_str (f : Nat) (s r : Str) :
    pVal (f + 1) (serString s ++ r) = some (JVal.str s, r) := by
  rw [show serString s ++ r = dqc :: (escString s ++ (dqc :: r)) from by
    rw [serString]; simp [List.cons_append, List.append_assoc]]
  simp [pVal, psb_escape]

/-! ## Unfolding equations for the serializer and decoder -/

theorem serJVal_str (d : Nat) (s : Str) : serJVal d (JVal.str s) = serString s := by
  simp [serJVal]

theorem serJVal_obj_cons (d : Nat) (e : Str × JVal) (es : List (Str × JVal)) :
    serJVal d (JVal.obj (e :: es))
      = obc :: (serJEntries (d + 1) (e :: es) ++ (nlIndent d ++ [cbc])) := by
  simp [serJVal]

theorem serJEntries_cons (d : Nat) (k : Str) (v : JVal) (es : List (Str × JVal)) :
    serJEntries d ((k, v) :: es)
      = (nlIndent d ++ (serString k ++ (':' :: ' ' :: serJVal d v))) ++
          (if es.isEmpty then [] else ',' :: serJEntries d es) := by
  simp [serJEntries]

theorem pMembers_step (f : Nat) (Y : Str) :
    pMembers (f + 1) (dqc :: Y)
      = (match parseStringBody Y with
         | some (k, r1) =>
           (match skipWs r1 with
            | c2 :: r3 =>
              if c2 = ':' then
                match pVal f (skipWs r3) with
                | some (v, r5) =>
                  (match skipWs r5 with
                   | c3 :: r7 =>
                     if c3 = ',' then
                       match pMembers f (skipWs r7) with
                       | some (es, r8) => some ((k, v) :: es, r8)
                       | none => none
                     else if c3 = cbc then some ([(k, v)], r7)
                     else none
                   | [] => none)
                | none => none
              else none
            | [] => none)
         | none => none) := by
  rw [pMembers.eq_def]
  dsimp only
  simp

theorem pVal_obc (f : Nat) (Y : Str) (hY : ∃ Z, skipWs Y = dqc :: Z) :
    pVal (f + 1) (obc :: Y)
      = match pMembers f (skipWs Y) with
        | some (es, r) => some (JVal.obj es, r)
        | none => none := by
  obtain ⟨Z, hZ⟩ := hY
  rw [pVal.eq_def]
  dsimp only
  simp only [hZ, (by decide : ¬ (obc = dqc)), (by decide : ¬ (dqc = cbc)), if_false,
    eq_self_iff_true, if_true]

theorem skipWs_serJEntries_cons (d : Nat) (k : Str) (v : JVal) (es : List (Str × JVal))
    (X : Str) :
    skipWs (serJEntries d ((k, v) :: es) ++ X)
      = dqc :: (escString k ++ (dqc :: (':' :: ' ' :: (serJVal d v ++
          ((if es.isEmpty then [] else ',' :: serJEntries d es) ++ X))))) := by
  rw [serJEntries_cons, serString]
  simp only [List.cons_append, List.append_assoc, List.singleton_append, List.nil_append]
  rw [skipWs_nlIndent, skipWs_cons_nonws _ _ (by decide)]

/-! ## Round trip of the decoder on serialized objects -/

theorem pMembers_ser (d d0 N : Nat) :
    ∀ es : List (Str × JVal), es ≠ [] →
      (∀ kv ∈ es, ∀ f2 r2, N ≤ f2 → pVal f2 (serJVal d kv.2 ++ r2) = some (kv.2, r2)) →
      ∀ f r, es.length + N ≤ f →
        pMembers f (skipWs (serJEntries d es ++ (nlIndent d0 ++ (cbc :: r)))) = some (es, r) := by
  intro es
  induction es with
  | nil => intro hne; exact absurd rfl hne
  | cons kv rest ih =>
    obtain ⟨k, v⟩ := kv
    intro _ hvals f r hf
    have hf' : rest.length + 1 + N ≤ f := by simpa using hf
    obtain ⟨f1, rfl⟩ : ∃ f1, f = f1 + 1 := ⟨f - 1, by omega⟩
    have hval := hvals (k, v) (List.mem_cons_self _ _)
    rw [skipWs_serJEntries_cons, pMembers_step, psb_escape]
    dsimp only
    rw [skipWs_cons_nonws _ _ (by decide)]
    dsimp only
    simp only [eq_self_iff_true, if_true]
    rw [skipWs_cons_ws _ _ (by decide), skipWs_serJVal,
      hval f1 _ (by omega)]
    dsimp only
    cases rest with
    | nil =>
      rw [show (if ([] : List (Str × JVal)).isEmpty = true then ([] : Str)
          else ',' :: serJEntries d []) = [] from by simp]
      rw [List.nil_append, skipWs_nlIndent, skipWs_cons_nonws _ _ (by decide)]
      dsimp only
      simp only [(by decide : ¬ (cbc = ',')), if_false, eq_self_iff_true, if_true]
    | cons kv2 rest2 =>
      rw [show (if (kv2 :: rest2 : List (Str × JVal)).isEmpty = true then ([] : Str)
          else ',' :: serJEntries d (kv2 :: rest2)) = ',' :: serJEntries d (kv2 :: rest2)
        from by simp]
      rw [List.cons_append, skipWs_cons_nonws _ _ (by decide)]
      dsimp only
      simp only [eq_self_iff_true, if_true]
      rw [ih (by simp) (fun kv3 hm3 => hvals kv3 (List.mem_cons_of_mem _ hm3)) f1 r (by
        simp only [List.length_cons] at hf' ⊢
        omega)]

theorem pVal_ser_obj (d N : Nat) (es : List (Str × JVal)) (hne : es ≠ [])
    (hvals : ∀ kv ∈ es, ∀ f2 r2, N ≤ f2 →
      pVal f2 (serJVal (d + 1) kv.2 ++ r2) = some (kv.2, r2)) :
    ∀ f r, es.length + N + 1 ≤ f →
      pVal f (serJVal d (JVal.obj es) ++ r) = some (JVal.obj es, r) := by
  intro f r hf
  obtain ⟨f1, rfl⟩ : ∃ f1, f = f1 + 1 := ⟨f - 1, by omega⟩
  obtain ⟨⟨k0, v0⟩, es0, rfl⟩ : ∃ e0 es0, es = e0 :: es0 := by
    cases es with
    | nil => exact absurd rfl hne
    | cons a b => exact ⟨a, b, rfl⟩
  rw [serJVal_obj_cons]
  simp only [List.cons_append, List.append_assoc, List.singleton_append, List.nil_append]
  rw [pVal_obc f1 _ ⟨_, skipWs_serJEntries_cons (d + 1) k0 v0 es0 _⟩]
  rw [pMembers_ser (d + 1) d N _ (by simp) hvals f1 r (by
    simp only [List.length_cons] at hf ⊢
    omega)]

/-! ## Key uniqueness of the parsed table and dict lookup lemmas -/

theorem jlookupD_eq_none_of_not_mem (d : List (Str × JVal)) (k : Str)
    (h : k ∉ d.map Prod.fst) : jlookupD d k = none := by
  induction d with
  | nil => rfl
  | cons e rest ih =>
    rw [List.map_cons] at h
    simp only [List.mem_cons] at h
    push_neg at h
    have hk : ¬ (e.1 = k) := fun he => h.1 he.symm
    simp only [jlookupD, ih h.2, hk, if_false]

theorem jlookupD_dictInsert_self (d : List (Str × JVal)) (k : Str) (x : JVal)
    (hnd : (d.map Prod.fst).Nodup) : jlookupD (dictInsert d k x) k = some x := by
  induction d with
  | nil => simp [dictInsert, jlookupD]
  | cons e rest ih =>
    obtain ⟨k0, v0⟩ := e
    rw [List.map_cons] at hnd
    obtain ⟨hnm, hnd2⟩ := List.nodup_cons.mp hnd
    by_cases hk : k0 = k
    · subst hk
      rw [show dictInsert ((k0, v0) :: rest) k0 x = (k0, x) :: rest from by
        simp [dictInsert]]
      simp [jlookupD, jlookupD_eq_none_of_not_mem rest k0 hnm]
    · rw [show dictInsert ((k0, v0) :: rest) k x = (k0, v0) :: dictInsert rest k x from by
        simp [dictInsert, hk]]
      simp only [jlookupD, ih hnd2]

theorem map_fst_dictInsert {α β : Type} [DecidableEq α] (d : List (α × β)) (k : α) (v : β) :
    (dictInsert d k v).map Prod.fst
      = if k ∈ d.map Prod.fst then d.map Prod.fst else d.map Prod.fst ++ [k] := by
  induction d with
  | nil => simp [dictInsert]
  | cons e rest ih =>
    obtain ⟨k0, v0⟩ := e
    by_cases hk : k0 = k
    · subst hk
      rw [show dictInsert ((k0, v0) :: rest) k0 v = (k0, v) :: rest from by
        simp [dictInsert]]
      simp [List.map_cons]
    · rw [show dictInsert ((k0, v0) :: rest) k v = (k0, v0) :: dictInsert rest k v from by
        simp [dictInsert, hk]]
      rw [List.map_cons, List.map_cons, ih]
      by_cases hm : k ∈ rest.map Prod.fst
      · simp [hm, Ne.symm hk]
      · simp [hm, Ne.symm hk]

theorem nodup_dictInsert {α β : Type} [DecidableEq α] (d : List (α × β)) (k : α) (v : β)
    (hnd : (d.map Prod.fst).Nodup) : ((dictInsert d k v).map Prod.fst).Nodup := by
  rw [map_fst_dictInsert]
  by_cases hm : k ∈ d.map Prod.fst
  · simp [hm, hnd]
  · simp only [hm, if_false]
    exact List.Nodup.append hnd (List.nodup_singleton k)
      (fun a ha hb => hm (List.mem_singleton.mp hb ▸ ha))

theorem processLine_nodup (st : PState) (line : Str)
    (h : (st.translations.map Prod.fst).Nodup) :
    (((processLine st line).translations).map Prod.fst).Nodup := by
  rcases processLine_translations st line with hs | ⟨hs, -⟩
  · rw [hs]; exact h
  · rw [hs]; exact nodup_dictInsert _ _ _ h

theorem foldl_processLine_nodup (lines : List Str) (st : PState)
    (h : (st.translations.map Prod.fst).Nodup) :
    (((lines.foldl processLine st).translations).map Prod.fst).Nodup := by
  induction lines generalizing st with
  | nil => exact h
  | cons l rest ih => exact ih _ (processLine_nodup st l h)

theorem parsePO_nodup (lines : List Str) : ((parsePO lines).map Prod.fst).Nodup := by
  have h0 := foldl_processLine_nodup lines initPState (by simp [initPState])
  have hflush : ((flushFinal (lines.foldl processLine initPState)).map Prod.fst).Nodup := by
    rcases flushFinal_shape (lines.foldl processLine initPState) with hs | ⟨hs, -⟩
    · rw [hs]; exact h0
    · rw [hs]; exact nodup_dictInsert _ _ _ h0
  exact List.Nodup.sublist (List.Sublist.map Prod.fst (List.filter_sublist _)) hflush

theorem localeEntries_fold_lookup :
    ∀ (tbl : List (Str × Str)) (acc : List (Str × JVal)) (k v : Str),
      (tbl.map Prod.fst).Nodup → (acc.map Prod.fst).Nodup → (k, v) ∈ tbl →
      jlookupD (tbl.foldl (fun a kv => dictInsert a kv.1 (JVal.str kv.2)) acc) k
        = some (JVal.str v) := by
  intro tbl
  induction tbl with
  | nil => intro acc k v _ _ hm; cases hm
  | cons kv rest ih =>
    intro acc k v hnd hacc hm
    rw [List.map_cons] at hnd
    obtain ⟨hh, hnd2⟩ := List.nodup_cons.mp hnd
    rw [List.foldl_cons]
    rcases List.mem_cons.mp hm with he | he
    · obtain ⟨rfl, rfl⟩ : kv.1 = k ∧ kv.2 = v := by
        rw [← he]
        exact ⟨rfl, rfl⟩
      rw [jlookupD_foldl_not_mem rest _ kv.1
        (fun kv2 hm2 heq => hh (heq ▸ List.mem_map_of_mem Prod.fst hm2))]
      exact jlookupD_dictInsert_self acc kv.1 _ hacc
    · exact ih _ k v hnd2 (nodup_dictInsert _ _ _ hacc) he

theorem jlookupD_localeEntries (tbl : List (Str × Str)) (k v : Str)
    (hnd : (tbl.map Prod.fst).Nodup) (hm : (k, v) ∈ tbl) :
    jlookupD (localeEntries tbl) k = some (JVal.str v) :=
  localeEntries_fold_lookup tbl _ k v hnd (by simp) hm

/-! ## Shape of the domain-level entry list -/

theorem dictInsert_ne_nil {α β : Type} [DecidableEq α] (d : List (α × β)) (k : α) (v : β) :
    dictInsert d k v ≠ [] := by
  cases d with
  | nil => simp [dictInsert]
  | cons e rest =>
    obtain ⟨k0, v0⟩ := e
    by_cases hk : k0 = k <;> simp [dictInsert, hk]

theorem foldl_dictInsert_ne_nil (tbl : List (Str × Str)) :
    ∀ acc : List (Str × JVal), acc ≠ [] →
      tbl.foldl (fun a kv => dictInsert a kv.1 (JVal.str kv.2)) acc ≠ [] := by
  induction tbl with
  | nil => intro acc h; exact h
  | cons kv rest ih =>
    intro acc _
    rw [List.foldl_cons]
    exact ih _ (dictInsert_ne_nil _ _ _)

theorem localeEntries_ne_nil (tbl : List (Str × Str)) : localeEntries tbl ≠ [] :=
  foldl_dictInsert_ne_nil tbl _ (by simp)

theorem localeEntries_vals (tbl : List (Str × Str)) :
    ∀ kv ∈ localeEntries tbl, kv.2 = metaEntry ∨ ∃ s, kv.2 = JVal.str s := by
  intro kv hm
  obtain ⟨a, b⟩ := kv
  rcases mem_foldl_dictInsert tbl _ a b hm with h | h
  · simp only [List.mem_singleton, Prod.mk.injEq] at h
    exact Or.inl h.2
  · obtain ⟨kv2, -, -, hb⟩ := h
    exact Or.inr ⟨kv2.2, hb⟩

/-! ## A length bound giving the decoder enough fuel -/

theorem serJEntries_len_ge (d : Nat) (es : List (Str × JVal)) :
    es.length ≤ (serJEntries d es).length := by
  induction es with
  | nil => simp [serJEntries]
  | cons e rest ih =>
    obtain ⟨k, v⟩ := e
    rw [serJEntries_cons]
    have hnl : (nlIndent d).length = 1 + 2 * d := by
      simp [nlIndent]
      omega
    cases rest with
    | nil =>
      rw [show (if ([] : List (Str × JVal)).isEmpty = true then ([] : Str)
          else ',' :: serJEntries d []) = [] from by simp]
      simp only [List.append_nil, List.length_append, List.length_cons, List.length_nil, hnl]
      omega
    | cons e2 rest2 =>
      rw [show (if (e2 :: rest2 : List (Str × JVal)).isEmpty = true then ([] : Str)
          else ',' :: serJEntries d (e2 :: rest2)) = ',' :: serJEntries d (e2 :: rest2)
        from by simp]
      simp only [List.length_append, List.length_cons, hnl]
      simp only [List.length_cons] at ih
      omega

theorem doc_len_aux (L : List (Str × JVal)) (e0 : Str × JVal) (es0 : List (Str × JVal))
    (hL : L = e0 :: es0) :
    L.length + 9 ≤ (serJVal 0 (JVal.obj
      [("domain".data, JVal.str domainStr),
       ("locale_data".data, JVal.obj [(domainStr, JVal.obj L)])])).length := by
  have hge := serJEntries_len_ge 3 L
  have e1 : serJVal 2 (JVal.obj L) = obc :: (serJEntries 3 L ++ (nlIndent 2 ++ [cbc])) := by
    rw [hL]
    exact serJVal_obj_cons 2 e0 es0
  have l1 : (serString ("domain".data)).length = 8 := by decide
  have l2 : (serString ("locale_data".data)).length = 13 := by decide
  have l3 : (serString domainStr).length = 13 := by decide
  simp [serJVal_obj_cons, serJEntries_cons, serJVal_str, e1, nlIndent, l1, l2, l3]
  omega

/-! ## The full document round trip and claim C3 -/

theorem jloads_serJVal_doc (tbl : List (Str × Str)) :
    jloads (serJVal 0 (localeDocument tbl)) = some (localeDocument tbl) := by
  obtain ⟨e0, es0, hL3⟩ : ∃ e0 es0, localeEntries tbl = e0 :: es0 := by
    cases h : localeEntries tbl with
    | nil => exact absurd h (localeEntries_ne_nil tbl)
    | cons a b => exact ⟨a, b, rfl⟩
  have hvals3 : ∀ kv ∈ localeEntries tbl, ∀ f2 r2, 4 ≤ f2 →
      pVal f2 (serJVal 3 kv.2 ++ r2) = some (kv.2, r2) := by
    intro kv hm f2 r2 hf2
    rcases localeEntries_vals tbl kv hm with hmv | ⟨s, hs⟩
    · rw [hmv, show metaEntry = JVal.obj
        [("domain".data, JVal.str domainStr), ("lang".data, JVal.str langStr)] from rfl]
      refine pVal_ser_obj 3 1 _ (by simp) ?_ f2 r2
        (by simp only [List.length_cons, List.length_nil]; omega)
      intro kv2 hm2 f3 r3 hf3
      obtain ⟨g, rfl⟩ : ∃ g, f3 = g + 1 := ⟨f3 - 1, by omega⟩
      rcases List.mem_cons.mp hm2 with he | he
      · subst he
        rw [serJVal_str]
        exact pVal_ser_str g _ r3
      · rw [List.mem_singleton] at he
        subst he
        rw [serJVal_str]
        exact pVal_ser_str g _ r3
    · rw [hs, serJVal_str]
      obtain ⟨g, rfl⟩ : ∃ g, f2 = g + 1 := ⟨f2 - 1, by omega⟩
      exact pVal_ser_str g s r2
  have hvals2 : ∀ kv ∈ [(domainStr, JVal.obj (localeEntries tbl))], ∀ f2 r2,
      (localeEntries tbl).length + 5 ≤ f2 →
      pVal f2 (serJVal 2 kv.2 ++ r2) = some (kv.2, r2) := by
    intro kv hm f2 r2 hf2
    rw [List.mem_singleton] at hm
    subst hm
    exact pVal_ser_obj 2 4 _ (localeEntries_ne_nil tbl) hvals3 f2 r2 (by omega)
  have hvals1 : ∀ kv ∈ [("domain".data, JVal.str domainStr),
      ("locale_data".data, JVal.obj [(domainStr, JVal.obj (localeEntries tbl))])],
      ∀ f2 r2, (localeEntries tbl).length + 7 ≤ f2 →
      pVal f2 (serJVal 1 kv.2 ++ r2) = some (kv.2, r2) := by
    intro kv hm f2 r2 hf2
    rcases List.mem_cons.mp hm with he | he
    · subst he
      rw [serJVal_str]
      obtain ⟨g, rfl⟩ : ∃ g, f2 = g + 1 := ⟨f2 - 1, by omega⟩
      exact pVal_ser_str g _ r2
    · rw [List.mem_singleton] at he
      subst he
      refine pVal_ser_obj 1 ((localeEntries tbl).length + 5) _ (by simp) hvals2 f2 r2 ?_
      simp only [List.length_cons, List.length_nil]
      omega
  have htop := pVal_ser_obj 0 ((localeEntries tbl).length + 7) _ (by simp) hvals1
  have hlen := doc_len_aux (localeEntries tbl) e0 es0 hL3
  have hstep : ([("domain".data, JVal.str domainStr),
      ("locale_data".data, JVal.obj [(domainStr, JVal.obj (localeEntries tbl))])]
        : List (Str × JVal)).length = 2 := rfl
  have h2 := htop ((serJVal 0 (JVal.obj [("domain".data, JVal.str domainStr),
      ("locale_data".data, JVal.obj [(domainStr, JVal.obj (localeEntries tbl))])])).length + 1)
    [] (by rw [hstep]; omega)
  rw [List.append_nil] at h2
  rw [show localeDocument tbl = JVal.obj [("domain".data, JVal.str domainStr),
      ("locale_data".data, JVal.obj [(domainStr, JVal.obj (localeEntries tbl))])] from rfl]
  show (match pVal ((serJVal 0 (JVal.obj [("domain".data, JVal.str domainStr),
      ("locale_data".data, JVal.obj [(domainStr, JVal.obj (localeEntries tbl))])])).length + 1)
      (serJVal 0 (JVal.obj [("domain".data, JVal.str domainStr),
        ("locale_data".data, JVal.obj [(domainStr, JVal.obj (localeEntries tbl))])])) with
    | some (v, r) => if skipWs r = [] then some v else none
    | none => none) = _
  rw [h2]
  rfl

theorem domainLookup_localeDocument (tbl : List (Str × Str)) (k : Str) :
    domainLookup (localeDocument tbl) k = jlookupD (localeEntries tbl) k := by
  rw [show localeDocument tbl = JVal.obj [("domain".data, JVal.str domainStr),
      ("locale_data".data, JVal.obj [(domainStr, JVal.obj (localeEntries tbl))])] from rfl]
  simp [domainLookup, jlookupD]

/-- C3: for every entry of the parsed translation table with nonempty key
and value, serializing the locale document and decoding it back as JSON
yields the same pair under `locale_data` at the domain level. -/
theorem c3_parse_emit_reparse (lines : List Str) (k v : Str)
    (hmem : (k, v) ∈ parsePO lines) (hk : k ≠ ([] : Str)) (hv : v ≠ ([] : Str)) :
    (jloads (serJVal 0 (localeDocument (parsePO lines)))).bind
      (fun doc => domainLookup doc k) = some (JVal.str v) := by
  rw [jloads_serJVal_doc]
  show domainLookup (localeDocument (parsePO lines)) k = some (JVal.str v)
  rw [domainLookup_localeDocument]
  exact jlookupD_localeEntries _ k v (parsePO_nodup lines) hmem

/-- Witness for C3 at the concrete scenario. -/
theorem c3_parse_emit_reparse_witness :
    (("Hello".data, "Xin chào".data) ∈ parsePO helloEmptyLines) ∧
      (jloads (serJVal 0 (localeDocument (parsePO helloEmptyLines)))).bind
        (fun doc => domainLookup doc ("Hello".data)) = some (JVal.str ("Xin chào".data)) :=
  ⟨by decide, c3_parse_emit_reparse helloEmptyLines _ _ (by decide) (by decide) (by decide)⟩

